import Mathlib

/-!
Verification development for the `ch` colored-highlighter program (main.go).

The program is embedded shallowly at the byte level: Go strings are modelled
as `List Nat` (one `Nat` per byte), Go's `[]bool` occupancy mask as
`List Bool`, and Go runtime panics (out-of-range slice or index) as `none`
in an `Option` result.  All loops of the source are modelled as structurally
recursive functions with an explicit fuel parameter chosen large enough that
fuel exhaustion is unreachable on the iteration counts the source performs.

The embedded program is the variant of main.go that supports the `-b`
(background) flag: `parseColor`, `parseArgs`, `getNextAvailableColor` and
`highlightLine` with two-sided whole-word extension, as documented in the
repository README.
-/

/-- ASCII `ESC [ 0 m` reset sequence: the Go constant `Reset = "\x1b[0m"`. -/
def resetCode : List Nat := [27, 91, 48, 109]

/-- Decimal digits (ASCII bytes) of a natural number, fuel-driven.
Models Go's `%d` formatting of a non-negative int. -/
def natDigitsAux : Nat → Nat → List Nat
  | 0, _ => []
  | fuel + 1, n => if n < 10 then [48 + n] else natDigitsAux fuel (n / 10) ++ [48 + n % 10]

/-- ASCII decimal representation of `n`. -/
def natDigits (n : Nat) : List Nat := natDigitsAux (n + 1) n

/-- `rgbToANSI(r, g, b, background)` from main.go: the 24-bit SGR escape
sequence `ESC[48;2;R;G;Bm` (background) or `ESC[38;2;R;G;Bm` (foreground). -/
def rgbToANSI (r g b : Nat) (background : Bool) : List Nat :=
  [27, 91] ++ (if background then [52, 56] else [51, 56]) ++ [59, 50, 59]
    ++ natDigits r ++ [59] ++ natDigits g ++ [59] ++ natDigits b ++ [109]

/-- One entry of the preset palette: `namedColor{name, r, g, b}` in main.go. -/
structure NamedColor where
  name : List Nat
  r : Nat
  g : Nat
  b : Nat
  deriving DecidableEq

/-- The preset palette `namedColors` of main.go, in assignment order:
red, green, orange, blue, pink, purple (names as ASCII byte lists). -/
def namedColors : List NamedColor :=
  [⟨[114, 101, 100], 255, 105, 97⟩,            -- "red"
   ⟨[103, 114, 101, 101, 110], 134, 194, 29⟩,  -- "green"
   ⟨[111, 114, 97, 110, 103, 101], 240, 160, 75⟩, -- "orange"
   ⟨[98, 108, 117, 101], 134, 176, 189⟩,       -- "blue"
   ⟨[112, 105, 110, 107], 255, 164, 164⟩,      -- "pink"
   ⟨[112, 117, 114, 112, 108, 101], 203, 166, 247⟩] -- "purple"

/-- Lower-case a single ASCII byte (Go lowercases `'A'..'Z'` by adding 32). -/
def asciiByteToLower (b : Nat) : Nat := if 65 ≤ b ∧ b ≤ 90 then b + 32 else b

/-- Simple Unicode lower-case mapping used by Go's `unicode.ToLower`,
restricted to the code points exercised in this development: ASCII letters,
and the length-changing case pairs U+0130 (İ→i), U+023A (Ⱥ→ⱥ, U+2C65),
U+023E (Ⱦ→ⱦ, U+2C66), U+212A (KELVIN→k) and U+212B (ANGSTROM→å).
All other runes are left unchanged (identity), which agrees with
`unicode.ToLower` on every rune that the theorems below evaluate. -/
def unicodeSimpleLower (r : Nat) : Nat :=
  if 65 ≤ r ∧ r ≤ 90 then r + 32
  else if r = 304 then 105       -- U+0130 → U+0069
  else if r = 570 then 11365     -- U+023A → U+2C65
  else if r = 574 then 11366     -- U+023E → U+2C66
  else if r = 8490 then 107      -- U+212A → U+006B
  else if r = 8491 then 229      -- U+212B → U+00E5
  else r

/-- Is `b` a UTF-8 continuation byte (`0x80..0xBF`)? -/
def isContByte (b : Nat) : Bool := 128 ≤ b && b ≤ 191

/-- UTF-8 decoder with the error behaviour of Go's `utf8.DecodeRune`:
an invalid encoding consumes one byte and yields U+FFFD (65533).
Fuel-driven; one byte is consumed per recursive step at minimum. -/
def utf8DecodeAux : Nat → List Nat → List Nat
  | 0, _ => []
  | _, [] => []
  | fuel + 1, b :: rest =>
    if b < 128 then b :: utf8DecodeAux fuel rest
    else if 194 ≤ b ∧ b ≤ 223 then
      match rest with
      | b1 :: rest1 =>
        if isContByte b1 then ((b - 192) * 64 + (b1 - 128)) :: utf8DecodeAux fuel rest1
        else 65533 :: utf8DecodeAux fuel rest
      | [] => [65533]
    else if 224 ≤ b ∧ b ≤ 239 then
      match rest with
      | b1 :: b2 :: rest2 =>
        if (if b = 224 then 160 ≤ b1 && b1 ≤ 191
            else if b = 237 then 128 ≤ b1 && b1 ≤ 159
            else isContByte b1) && isContByte b2 then
          ((b - 224) * 4096 + (b1 - 128) * 64 + (b2 - 128)) :: utf8DecodeAux fuel rest2
        else 65533 :: utf8DecodeAux fuel rest
      | _ => 65533 :: utf8DecodeAux fuel rest
    else if 240 ≤ b ∧ b ≤ 244 then
      match rest with
      | b1 :: b2 :: b3 :: rest3 =>
        if (if b = 240 then 144 ≤ b1 && b1 ≤ 191
            else if b = 244 then 128 ≤ b1 && b1 ≤ 143
            else isContByte b1) && isContByte b2 && isContByte b3 then
          ((b - 240) * 262144 + (b1 - 128) * 4096 + (b2 - 128) * 64 + (b3 - 128))
            :: utf8DecodeAux fuel rest3
        else 65533 :: utf8DecodeAux fuel rest
      | _ => 65533 :: utf8DecodeAux fuel rest
    else 65533 :: utf8DecodeAux fuel rest

/-- Decode a byte list into the list of runes Go would iterate over. -/
def utf8Decode (s : List Nat) : List Nat := utf8DecodeAux s.length s

/-- UTF-8 encoding of a rune (valid scalar values, as produced by decoding). -/
def utf8Encode (r : Nat) : List Nat :=
  if r < 128 then [r]
  else if r < 2048 then [192 + r / 64, 128 + r % 64]
  else if r < 65536 then [224 + r / 4096, 128 + (r / 64) % 64, 128 + r % 64]
  else [240 + r / 262144, 128 + (r / 4096) % 64, 128 + (r / 64) % 64, 128 + r % 64]

/-- Go's `strings.ToLower`: for all-ASCII input, byte-wise lower-casing
(Go's fast path); otherwise decode to runes, lower each, re-encode. -/
def goToLower (s : List Nat) : List Nat :=
  if s.all (fun b => b < 128) then s.map asciiByteToLower
  else ((utf8Decode s).map (fun r => utf8Encode (unicodeSimpleLower r))).flatten

/-- Value of an ASCII hex digit, if any. -/
def hexVal (b : Nat) : Option Nat :=
  if 48 ≤ b ∧ b ≤ 57 then some (b - 48)
  else if 97 ≤ b ∧ b ≤ 102 then some (b - 87)
  else if 65 ≤ b ∧ b ≤ 70 then some (b - 55)
  else none

/-- Is `b` a byte Go's `fmt` scanner skips as whitespace? -/
def isScanSpace (b : Nat) : Bool := b == 32 || b == 9 || b == 10 || b == 13 || b == 11 || b == 12

/-- One `%02x` conversion of `fmt.Sscanf`: skip leading whitespace, then read
one or two hex digits (at least one required).  Returns the value and the
remaining input, or `none` if no hex digit is found — in which case `Sscanf`
stops and leaves the remaining output variables at their zero values. -/
def scanHex2 (s : List Nat) : Option (Nat × List Nat) :=
  match s.dropWhile isScanSpace with
  | [] => none
  | b :: rest =>
    match hexVal b with
    | none => none
    | some v =>
      match rest with
      | c :: rest1 =>
        match hexVal c with
        | some w => some (16 * v + w, rest1)
        | none => some (v, rest)
      | [] => some (v, [])

/-- `fmt.Sscanf(hex, "%02x%02x%02x", &r, &g, &b)` with the scan error ignored,
exactly as in main.go's `parseColor`: components that fail to scan keep their
Go zero value `0`. -/
def sscanfHex3 (s : List Nat) : Nat × Nat × Nat :=
  match scanHex2 s with
  | none => (0, 0, 0)
  | some (r, s1) =>
    match scanHex2 s1 with
    | none => (r, 0, 0)
    | some (g, s2) =>
      match scanHex2 s2 with
      | none => (r, g, 0)
      | some (b, _) => (r, g, b)

/-- `strings.TrimPrefix(colorStr, "#")`: drop one leading `'#'` (35) if present. -/
def goTrimHash : List Nat → List Nat
  | 35 :: rest => rest
  | s => s

/-- `parseColor(colorStr, background)` from main.go.  The empty list models
Go's empty-string failure result.  A named palette color (matched against the
lower-cased token) renders directly; otherwise the token, after an optional
`#`, must be exactly 6 bytes long and is scanned as hex (with scan errors
ignored, see `sscanfHex3`). -/
def parseColor (colorStr : List Nat) (background : Bool) : List Nat :=
  match namedColors.find? (fun nc => nc.name == goToLower colorStr) with
  | some nc => rgbToANSI nc.r nc.g nc.b background
  | none =>
    let hex := goTrimHash colorStr
    if hex.length ≠ 6 then []
    else
      let rgb := sscanfHex3 hex
      rgbToANSI rgb.1 rgb.2.1 rgb.2.2 background

/-- `strings.Split(arg, "::")`: split around every non-overlapping occurrence
of the two-byte separator `"::"` ([58, 58]), leftmost first. -/
def goSplit2 : List Nat → List (List Nat)
  | [] => [[]]
  | 58 :: 58 :: rest => [] :: goSplit2 rest
  | b :: rest =>
    match goSplit2 rest with
    | h :: t => (b :: h) :: t
    | [] => [[b]]

/-- `getNextAvailableColor(usedColors, background)` from main.go.  The Go
`map[int]bool` keyed by palette indices 0..5 is modelled as a `List Bool` of
length 6 (an absent key reads as `false`, hence `getD i false`).  The first
unused palette slot is marked used and rendered; once every slot is used the
first palette entry is returned without marking anything. -/
def getNextAvailableColor (used : List Bool) (background : Bool) : List Nat × List Bool :=
  match (List.range namedColors.length).find? (fun i => !(used.getD i false)) with
  | some i =>
    let nc := namedColors.getD i ⟨[], 0, 0, 0⟩
    (rgbToANSI nc.r nc.g nc.b background, used.set i true)
  | none =>
    let nc := namedColors.getD 0 ⟨[], 0, 0, 0⟩
    (rgbToANSI nc.r nc.g nc.b background, used)

/-- `wordConfig` from main.go. -/
structure WordConfig where
  original : List Nat
  search : List Nat
  color : List Nat
  background : Bool
  deriving DecidableEq

/-- First pass of `parseArgs`: for one argument of the form `word::color`
with a non-empty color token that resolves, mark the first preset palette
slot whose rendered escape code equals the resolved code as used. -/
def reserveColor (background : Bool) (used : List Bool) (arg : List Nat) : List Bool :=
  match goSplit2 arg with
  | [_, c] =>
    if c = [] then used
    else
      let color := parseColor c background
      if color = [] then used
      else
        match namedColors.findIdx? (fun nc => rgbToANSI nc.r nc.g nc.b background == color) with
        | some i => used.set i true
        | none => used
  | _ => used

/-- The whole first pass of `parseArgs` over the argument list. -/
def reservePass (args : List (List Nat)) (background : Bool) : List Bool :=
  args.foldl (reserveColor background) (List.replicate namedColors.length false)

/-- Color chosen for one argument in the second pass of `parseArgs`, together
with the updated used-slot set: an explicitly specified color that resolves is
used as-is; an invalid or missing color falls back to the next available
preset (in Go, the invalid case additionally prints a warning to stderr and
continues — no abort). -/
def assignColor (used : List Bool) (arg : List Nat) (background : Bool) : List Nat × List Bool :=
  match goSplit2 arg with
  | [_, c] =>
    if c = [] then getNextAvailableColor used background
    else
      let color := parseColor c background
      if color = [] then getNextAvailableColor used background else (color, used)
  | _ => getNextAvailableColor used background

/-- Second pass of `parseArgs`: assign colors in input order, threading the
used-slot set.  `word` is the part before `"::"`; the search key is the word
lower-cased unless matching is case-sensitive.  Note that the source performs
no emptiness check on `word`. -/
def assignPass (caseSensitive background : Bool) : List (List Nat) → List Bool → List WordConfig
  | [], _ => []
  | arg :: rest, used =>
    let parts := goSplit2 arg
    let word := parts.headD []
    let cu := assignColor used arg background
    { original := word,
      search := if caseSensitive then word else goToLower word,
      color := cu.1,
      background := background } :: assignPass caseSensitive background rest cu.2

/-- `parseArgs(args, caseSensitive, background)` from main.go: the two-pass
color-reservation and assignment over the argument list. -/
def parseArgs (args : List (List Nat)) (caseSensitive background : Bool) : List WordConfig :=
  assignPass caseSensitive background args (reservePass args background)

/-- Is `b` one of the bytes `' '`, `'\n'`, `'\t'` that stop whole-word
extension in `highlightLine`? -/
def isBoundary (b : Nat) : Bool := b == 32 || b == 10 || b == 9

/-- Go's `strings.Index(s, key)`: the first offset `i` (0..len s) at which
`key` occurs as a prefix of `s[i:]`, or `none` for Go's `-1`. -/
def goIndex (s key : List Nat) : Option Nat :=
  (List.range (s.length + 1)).find? (fun i => key.isPrefixOf (s.drop i))

/-- The `replacement{start, end, text}` record of `highlightLine`
(the Go field `end` is called `stop` here: `end` is a Lean keyword). -/
structure Repl where
  start : Nat
  stop : Nat
  text : List Nat
  deriving DecidableEq

/-- The per-line mutable state of `highlightLine`: the occupancy mask
`colored` (one `Bool` per byte of the line) and the accepted replacements. -/
structure HState where
  colored : List Bool
  reps : List Repl
  deriving DecidableEq

/-- The overlap-check loop `for i := startIdx; i < endIdx; i++ { if colored[i]
{...} }` of `highlightLine`, iterated over `n` indices starting at `i`:
`some true` if a claimed byte is hit first, `some false` if the whole span is
in bounds and unclaimed, and `none` when an index reaches past the mask —
which in Go panics with an index-out-of-range error. -/
def checkSpanAux (colored : List Bool) : Nat → Nat → Option Bool
  | 0, _ => some false
  | n + 1, i =>
    if i < colored.length then
      if colored.getD i false then some true else checkSpanAux colored n (i + 1)
    else none

/-- Overlap check over the half-open span `[s, e)`. -/
def checkSpan (colored : List Bool) (s e : Nat) : Option Bool :=
  checkSpanAux colored (e - s) s

/-- The claiming loop of `highlightLine`: set every mask position in `[i, i+n)`
to `true` (only executed on spans the overlap check found in bounds). -/
def markSpanAux (colored : List Bool) : Nat → Nat → List Bool
  | 0, _ => colored
  | n + 1, i => markSpanAux (colored.set i true) n (i + 1)

/-- Claim the half-open span `[s, e)` in the mask. -/
def markSpan (colored : List Bool) (s e : Nat) : List Bool :=
  markSpanAux colored (e - s) s

/-- Go slice expression `l[s:e]`: `none` models the bounds panic when
`s ≤ e ≤ len l` fails. -/
def goSlice (l : List Nat) (s e : Nat) : Option (List Nat) :=
  if s ≤ e ∧ e ≤ l.length then some ((l.drop s).take (e - s)) else none

/-- The backward whole-word extension loop of `highlightLine`:
`for startIdx > 0 && line[startIdx-1] != ' ' && != '\n' && != '\t'
{ startIdx-- }`.  The byte read `line[startIdx-1]` panics (`none`) when it is
past the end of the line, which is reachable when the search view is longer
than the line.  Fuel-driven; `s` itself is sufficient fuel. -/
def extendBackAux (line : List Nat) : Nat → Nat → Option Nat
  | 0, s => some s
  | fuel + 1, s =>
    match s with
    | 0 => some 0
    | t + 1 =>
      if t < line.length then
        if isBoundary (line.getD t 0) then some (t + 1) else extendBackAux line fuel t
      else none

/-- Extend a span start backward to the enclosing word start. -/
def extendBack (line : List Nat) (s : Nat) : Option Nat := extendBackAux line s s

/-- The forward whole-word extension loop of `highlightLine`:
`for endIdx < len(line) && line[endIdx] != ' ' && != '\n' && != '\t'
{ endIdx++ }` (its guard keeps every read in bounds). -/
def extendFwdAux (line : List Nat) : Nat → Nat → Nat
  | 0, e => e
  | fuel + 1, e =>
    if e < line.length then
      if isBoundary (line.getD e 0) then e else extendFwdAux line fuel (e + 1)
    else e

/-- Extend a span end forward to the enclosing word end. -/
def extendFwd (line : List Nat) (e : Nat) : Nat := extendFwdAux line line.length e

/-- The body of `highlightLine`'s inner loop for one found occurrence at
byte offset `idx`: compute the (possibly whole-word-extended) span, check the
occupancy mask over it, and either discard the candidate (some byte already
claimed) or claim every byte of the span and append a replacement whose text
is built from the matched slice of the original line by `mk`.  In the source
`mk` is `cfg.color + matchedText + Reset` (see `goText`); it is a parameter
here so that the round-trip property can be stated.  `none` models the
panics of the mask check, the backward extension and the slice.

`spanOf` is the span computation of that loop body: the match's own
`[idx, idx+len(search))` without `-w`, and the whole-word-extended span
(backward panic included) with `-w`. -/
def spanOf (line search : List Nat) (wholeWord : Bool) (idx : Nat) : Option (Nat × Nat) :=
  if wholeWord then
    match extendBack line idx with
    | none => none
    | some s => some (s, extendFwd line (idx + search.length))
  else some (idx, idx + search.length)

/-- See `spanOf`: the rest of the loop body for one found occurrence. -/
def applyOccurrence (mk : List Nat → List Nat) (line search : List Nat) (wholeWord : Bool)
    (st : HState) (idx : Nat) : Option HState :=
  match spanOf line search wholeWord idx with
  | none => none
  | some (s, e) =>
    match checkSpan st.colored s e with
    | none => none
    | some true => some st
    | some false =>
      match goSlice line s e with
      | none => none
      | some matched =>
        some ⟨markSpan st.colored s e, st.reps ++ [⟨s, e, mk matched⟩]⟩

/-- The per-word scan loop of `highlightLine`: repeatedly find the next
occurrence of `search` in `searchLine[pos:]` (the slice panics, `none`, when
`pos` exceeds the view's length — reachable for an empty search key), process
it with `applyOccurrence`, and resume the scan at `idx + 1` (not at the end
of the match).  Fuel-driven; `searchLine.length + 2` is sufficient fuel
because `pos` strictly increases and the loop stops at `pos >
searchLine.length` at the latest. -/
def scanWordAux (mk : List Nat → List Nat) (searchLine line search : List Nat)
    (wholeWord : Bool) : Nat → Nat → HState → Option HState
  | 0, _, _ => none
  | fuel + 1, pos, st =>
    if searchLine.length < pos then none
    else
      match goIndex (searchLine.drop pos) search with
      | none => some st
      | some i =>
        match applyOccurrence mk line search wholeWord st (pos + i) with
        | none => none
        | some st1 => scanWordAux mk searchLine line search wholeWord fuel (pos + i + 1) st1

/-- Scan one word's occurrences over the whole line. -/
def scanWord (mk : List Nat → List Nat) (searchLine line search : List Nat)
    (wholeWord : Bool) (st : HState) : Option HState :=
  scanWordAux mk searchLine line search wholeWord (searchLine.length + 2) 0 st

/-- The `for _, cfg := range configs` loop of `highlightLine`, in table
order.  `mkText` renders one word's matched slice into the stored
replacement text. -/
def scanWords (mkText : WordConfig → List Nat → List Nat) (searchLine line : List Nat)
    (wholeWord : Bool) : List WordConfig → HState → Option HState
  | [], st => some st
  | cfg :: rest, st =>
    match scanWord (mkText cfg) searchLine line cfg.search wholeWord st with
    | none => none
    | some st1 => scanWords mkText searchLine line wholeWord rest st1

/-- Inner loop `for j := i + 1; ...` of the exchange sort in `highlightLine`:
starting from the element currently at position `i` (`h`) and the suffix
after it, swap whenever a later element has a smaller `start`.  Returns the
element left at position `i` and the permuted suffix. -/
def innerPass (h : Repl) : List Repl → Repl × List Repl
  | [] => (h, [])
  | x :: xs =>
    if x.start < h.start then
      let p := innerPass x xs
      (p.1, h :: p.2)
    else
      let p := innerPass h xs
      (p.1, x :: p.2)

/-- Outer loop of the exchange sort (fuel = list length suffices because the
inner pass preserves the suffix length). -/
def sortRepsAux : Nat → List Repl → List Repl
  | 0, l => l
  | _, [] => []
  | fuel + 1, h :: t =>
    let p := innerPass h t
    p.1 :: sortRepsAux fuel p.2

/-- The replacement sort of `highlightLine`: sort by `start` ascending. -/
def sortReps (l : List Repl) : List Repl := sortRepsAux l.length l

/-- The output-assembly loop of `highlightLine`: for each replacement emit
the untouched gap `line[lastPos:r.start]` then `r.text`, and finally the
trailing suffix `line[lastPos:]`.  `none` models the slice panics. -/
def assembleAux (line : List Nat) : Nat → List Repl → Option (List Nat)
  | last, [] => if last ≤ line.length then some (line.drop last) else none
  | last, r :: rest =>
    match goSlice line last r.start with
    | none => none
    | some gap =>
      match assembleAux line r.stop rest with
      | none => none
      | some tailOut => some (gap ++ r.text ++ tailOut)

/-- `searchLine` of `highlightLine`: the line itself when case-sensitive,
otherwise its `strings.ToLower` image. -/
def searchLineOf (caseSensitive : Bool) (line : List Nat) : List Nat :=
  if caseSensitive then line else goToLower line

/-- The replacement-text rendering of the source:
`coloredText := cfg.color + matchedText + Reset`. -/
def goText (cfg : WordConfig) (matched : List Nat) : List Nat :=
  cfg.color ++ matched ++ resetCode

/-- Identity rendering: stores the bare matched slice.  Used to state the
round-trip property (the colorizer's output with every color prefix and
reset sequence deleted). -/
def rawText (_cfg : WordConfig) (matched : List Nat) : List Nat := matched

/-- `highlightLine(line, configs, caseSensitive, wholeWord)` from main.go.
`none` models a Go runtime panic during the line's processing. -/
def highlightLine (line : List Nat) (configs : List WordConfig)
    (caseSensitive wholeWord : Bool) : Option (List Nat) :=
  match configs with
  | [] => some line
  | _ =>
    let searchLine := searchLineOf caseSensitive line
    match scanWords goText searchLine line wholeWord configs
        ⟨List.replicate line.length false, []⟩ with
    | none => none
    | some st =>
      match st.reps with
      | [] => some line
      | _ => assembleAux line 0 (sortReps st.reps)

/-- `highlightLine` with the color prefix and reset sequence stripped from
every replacement: the concatenation, in output order, of the untouched gaps
and the matched substrings.  Identical control flow to `highlightLine`;
only the stored replacement texts differ. -/
def highlightStripped (line : List Nat) (configs : List WordConfig)
    (caseSensitive wholeWord : Bool) : Option (List Nat) :=
  match configs with
  | [] => some line
  | _ =>
    let searchLine := searchLineOf caseSensitive line
    match scanWords rawText searchLine line wholeWord configs
        ⟨List.replicate line.length false, []⟩ with
    | none => none
    | some st =>
      match st.reps with
      | [] => some line
      | _ => assembleAux line 0 (sortReps st.reps)

/-- The sequence of candidate start offsets visited by the per-word scan loop
of `highlightLine` (same loop skeleton as `scanWordAux`, recording `idx` and
resuming at `idx + 1`), before any collision filtering. -/
def scanStartsAux (searchLine search : List Nat) : Nat → Nat → List Nat
  | 0, _ => []
  | fuel + 1, pos =>
    if searchLine.length < pos then []
    else
      match goIndex (searchLine.drop pos) search with
      | none => []
      | some i => (pos + i) :: scanStartsAux searchLine search fuel (pos + i + 1)

/-- All candidate start offsets of one word over the search view. -/
def scanStarts (searchLine search : List Nat) : List Nat :=
  scanStartsAux searchLine search (searchLine.length + 2) 0

/-- Boolean form of "some byte of `[s, e)` is already claimed in the mask". -/
def spanClaimedB (colored : List Bool) (s e : Nat) : Bool :=
  (List.range' s (e - s)).any (fun i => colored.getD i false)

/-- Every byte of the half-open span `[s, e)` is claimed in the mask. -/
def claimedIn (colored : List Bool) (s e : Nat) : Prop :=
  ∀ i, s ≤ i → i < e → colored.getD i false = true

/-- A recorded replacement is well-formed for `line` and the mask: a
non-empty span inside the line, every byte of which is claimed. -/
def ReplOK (line : List Nat) (colored : List Bool) (r : Repl) : Prop :=
  r.start < r.stop ∧ r.stop ≤ line.length ∧ claimedIn colored r.start r.stop

/-- Two replacements occupy disjoint spans. -/
def DisjR (a b : Repl) : Prop := a.stop ≤ b.start ∨ b.stop ≤ a.start

/-- Invariant of `highlightLine`'s per-line state: the mask is as long as the
line, every recorded replacement is well-formed, and the recorded spans are
pairwise disjoint. -/
def StOK (line : List Nat) (st : HState) : Prop :=
  st.colored.length = line.length ∧ (∀ r ∈ st.reps, ReplOK line st.colored r)
    ∧ st.reps.Pairwise DisjR

/-- Every recorded replacement's text is the bare matched slice of the line
(the shape produced by the `rawText` rendering). -/
def TextsRaw (line : List Nat) (st : HState) : Prop :=
  ∀ r ∈ st.reps, r.text = (line.drop r.start).take (r.stop - r.start)

-- ------------------------------------------------------------------
-- Theorems and helper lemmas
-- ------------------------------------------------------------------

theorem rgbToANSI_ne_nil (r g b : Nat) (bg : Bool) : rgbToANSI r g b bg ≠ [] := by
  cases bg <;> simp [rgbToANSI]

theorem checkSpanAux_some_false (colored : List Bool) :
    ∀ n i, checkSpanAux colored n i = some false →
      ∀ k, k < n → i + k < colored.length ∧ colored.getD (i + k) false = false := by
  intro n
  induction n with
  | zero => intro i _ k hk; omega
  | succ n ih =>
    intro i h k hk
    by_cases hi : i < colored.length
    · simp only [checkSpanAux, if_pos hi] at h
      cases hc : colored.getD i false with
      | true => rw [hc] at h; simp at h
      | false =>
        rw [hc] at h
        simp only [Bool.false_eq_true, if_false] at h
        rcases Nat.eq_zero_or_pos k with rfl | hkpos
        · exact ⟨by omega, by simpa using hc⟩
        · have := ih (i + 1) h (k - 1) (by omega)
          have hik : i + 1 + (k - 1) = i + k := by omega
          rw [hik] at this
          exact ⟨this.1, this.2⟩
    · simp only [checkSpanAux, if_neg hi] at h
      simp at h

theorem checkSpan_some_false (colored : List Bool) (s e : Nat)
    (h : checkSpan colored s e = some false) :
    ∀ i, s ≤ i → i < e → i < colored.length ∧ colored.getD i false = false := by
  intro i h1 h2
  have := checkSpanAux_some_false colored (e - s) s h (i - s) (by omega)
  have hi : s + (i - s) = i := by omega
  rwa [hi] at this

theorem checkSpanAux_eq_any (colored : List Bool) :
    ∀ n i, i + n ≤ colored.length →
      checkSpanAux colored n i
        = some ((List.range' i n).any (fun j => colored.getD j false)) := by
  intro n
  induction n with
  | zero => intro i _; simp [checkSpanAux]
  | succ n ih =>
    intro i h
    have hi : i < colored.length := by omega
    simp only [checkSpanAux, if_pos hi, List.range'_succ, List.any_cons]
    cases hc : colored.getD i false with
    | true => simp only [hc, if_true, Bool.true_or]
    | false =>
      simp only [hc, Bool.false_eq_true, if_false, Bool.false_or]
      exact ih (i + 1) (by omega)

theorem checkSpan_eq_spanClaimedB (colored : List Bool) (s e : Nat)
    (hse : s ≤ e) (h : e ≤ colored.length) :
    checkSpan colored s e = some (spanClaimedB colored s e) := by
  unfold checkSpan spanClaimedB
  exact checkSpanAux_eq_any colored (e - s) s (by omega)

theorem markSpanAux_length (colored : List Bool) :
    ∀ n i, (markSpanAux colored n i).length = colored.length := by
  intro n
  induction n generalizing colored with
  | zero => intro i; rfl
  | succ n ih => intro i; simp [markSpanAux, ih, List.length_set]

theorem markSpan_length (colored : List Bool) (s e : Nat) :
    (markSpan colored s e).length = colored.length := markSpanAux_length colored (e - s) s

theorem getD_set_self (l : List Bool) (i : Nat) (a b : Bool) (h : i < l.length) :
    (l.set i a).getD i b = a := by
  simp [List.getD_eq_getElem?_getD, List.getElem?_set_self h]

theorem getD_set_ne (l : List Bool) (i j : Nat) (a b : Bool) (h : i ≠ j) :
    (l.set i a).getD j b = l.getD j b := by
  simp [List.getD_eq_getElem?_getD, List.getElem?_set_ne h]

theorem markSpanAux_getD_lt (colored : List Bool) :
    ∀ n i j, j < i → (markSpanAux colored n i).getD j false = colored.getD j false := by
  intro n
  induction n generalizing colored with
  | zero => intro i j _; rfl
  | succ n ih =>
    intro i j hj
    simp only [markSpanAux]
    rw [ih (colored.set i true) (i + 1) j (by omega)]
    exact getD_set_ne colored i j true false (by omega)

theorem markSpanAux_getD_ge (colored : List Bool) :
    ∀ n i j, i + n ≤ j → (markSpanAux colored n i).getD j false = colored.getD j false := by
  intro n
  induction n generalizing colored with
  | zero => intro i j _; rfl
  | succ n ih =>
    intro i j hj
    simp only [markSpanAux]
    rw [ih (colored.set i true) (i + 1) j (by omega)]
    exact getD_set_ne colored i j true false (by omega)

theorem markSpanAux_getD_mem (colored : List Bool) :
    ∀ n i j, i ≤ j → j < i + n → j < colored.length →
      (markSpanAux colored n i).getD j false = true := by
  intro n
  induction n generalizing colored with
  | zero => intro i j _ _ _; omega
  | succ n ih =>
    intro i j h1 h2 h3
    simp only [markSpanAux]
    rcases Nat.eq_or_lt_of_le h1 with rfl | hlt
    · rw [markSpanAux_getD_lt (colored.set i true) n (i + 1) i (by omega)]
      exact getD_set_self colored i true false h3
    · exact ih (colored.set i true) (i + 1) j hlt (by omega) (by simpa [List.length_set])

theorem markSpanAux_getD_mono (colored : List Bool) :
    ∀ n i j, colored.getD j false = true →
      (markSpanAux colored n i).getD j false = true := by
  intro n
  induction n generalizing colored with
  | zero => intro i j h; exact h
  | succ n ih =>
    intro i j h
    simp only [markSpanAux]
    apply ih
    by_cases hij : i = j
    · subst hij
      by_cases hi : i < colored.length
      · exact getD_set_self colored i true false hi
      · rw [List.set_eq_of_length_le (by omega)]; exact h
    · rw [getD_set_ne colored i j true false hij]; exact h

theorem markSpan_getD_mem (colored : List Bool) (s e j : Nat)
    (h1 : s ≤ j) (h2 : j < e) (h3 : j < colored.length) :
    (markSpan colored s e).getD j false = true :=
  markSpanAux_getD_mem colored (e - s) s j h1 (by omega) h3

theorem markSpan_getD_mono (colored : List Bool) (s e j : Nat)
    (h : colored.getD j false = true) :
    (markSpan colored s e).getD j false = true :=
  markSpanAux_getD_mono colored (e - s) s j h

theorem goSlice_eq_some (l : List Nat) (s e : Nat) (h1 : s ≤ e) (h2 : e ≤ l.length) :
    goSlice l s e = some ((l.drop s).take (e - s)) := by
  simp [goSlice, h1, h2]

theorem goSlice_some_val (l : List Nat) (s e : Nat) (v : List Nat)
    (h : goSlice l s e = some v) : v = (l.drop s).take (e - s) := by
  unfold goSlice at h
  split at h
  · exact (Option.some_inj.mp h).symm
  · exact absurd h (by simp)

theorem extendFwdAux_ge (line : List Nat) :
    ∀ fuel e, e ≤ extendFwdAux line fuel e := by
  intro fuel
  induction fuel with
  | zero => intro e; exact Nat.le_refl e
  | succ fuel ih =>
    intro e
    simp only [extendFwdAux]
    split
    · split
      · exact Nat.le_refl e
      · exact Nat.le_trans (by omega) (ih (e + 1))
    · exact Nat.le_refl e

theorem extendFwd_ge (line : List Nat) (e : Nat) : e ≤ extendFwd line e :=
  extendFwdAux_ge line line.length e

theorem extendFwdAux_spec (line : List Nat) :
    ∀ fuel e, e ≤ line.length → line.length ≤ e + fuel →
      extendFwdAux line fuel e ≤ line.length
      ∧ (∀ j, e ≤ j → j < extendFwdAux line fuel e → isBoundary (line.getD j 0) = false)
      ∧ (extendFwdAux line fuel e = line.length
         ∨ isBoundary (line.getD (extendFwdAux line fuel e) 0) = true) := by
  intro fuel
  induction fuel with
  | zero =>
    intro e h1 h2
    have he : e = line.length := by omega
    simp only [extendFwdAux]
    exact ⟨by omega, fun j hj1 hj2 => by omega, Or.inl he⟩
  | succ fuel ih =>
    intro e h1 h2
    simp only [extendFwdAux]
    by_cases hlt : e < line.length
    · rw [if_pos hlt]
      cases hb : isBoundary (line.getD e 0) with
      | true =>
        rw [if_pos rfl]
        exact ⟨by omega, fun j hj1 hj2 => by omega, Or.inr hb⟩
      | false =>
        simp only [Bool.false_eq_true, if_false]
        obtain ⟨ha, hb2, hc⟩ := ih (e + 1) (by omega) (by omega)
        refine ⟨ha, fun j hj1 hj2 => ?_, hc⟩
        rcases Nat.eq_or_lt_of_le hj1 with rfl | hj
        · exact hb
        · exact hb2 j hj hj2
    · rw [if_neg hlt]
      exact ⟨by omega, fun j hj1 hj2 => by omega, Or.inl (by omega)⟩

theorem extendFwd_spec (line : List Nat) (e : Nat) (h : e ≤ line.length) :
    extendFwd line e ≤ line.length
    ∧ (∀ j, e ≤ j → j < extendFwd line e → isBoundary (line.getD j 0) = false)
    ∧ (extendFwd line e = line.length
       ∨ isBoundary (line.getD (extendFwd line e) 0) = true) :=
  extendFwdAux_spec line line.length e h (by omega)

theorem extendBackAux_le (line : List Nat) :
    ∀ fuel s r, extendBackAux line fuel s = some r → r ≤ s := by
  intro fuel
  induction fuel with
  | zero =>
    intro s r h
    simp only [extendBackAux, Option.some_inj] at h
    omega
  | succ fuel ih =>
    intro s r h
    match s, h with
    | 0, h =>
      simp only [extendBackAux, Option.some_inj] at h
      omega
    | t + 1, h =>
      simp only [extendBackAux] at h
      split at h
      · split at h
        · simp only [Option.some_inj] at h; omega
        · exact Nat.le_trans (ih t r h) (by omega)
      · simp at h

theorem extendBack_le (line : List Nat) (s r : Nat) (h : extendBack line s = some r) :
    r ≤ s := extendBackAux_le line s s r h

theorem extendBackAux_spec (line : List Nat) :
    ∀ fuel s, s ≤ line.length → s ≤ fuel →
      ∃ r, extendBackAux line fuel s = some r ∧ r ≤ s
        ∧ (∀ j, r ≤ j → j < s → isBoundary (line.getD j 0) = false)
        ∧ (r = 0 ∨ isBoundary (line.getD (r - 1) 0) = true) := by
  intro fuel
  induction fuel with
  | zero =>
    intro s h1 h2
    have hs : s = 0 := by omega
    subst hs
    exact ⟨0, rfl, Nat.le_refl 0, fun j hj1 hj2 => by omega, Or.inl rfl⟩
  | succ fuel ih =>
    intro s h1 h2
    match s with
    | 0 =>
      exact ⟨0, rfl, Nat.le_refl 0, fun j hj1 hj2 => by omega, Or.inl rfl⟩
    | t + 1 =>
      have ht : t < line.length := by omega
      simp only [extendBackAux, if_pos ht]
      cases hb : isBoundary (line.getD t 0) with
      | true =>
        rw [if_pos rfl]
        refine ⟨t + 1, rfl, Nat.le_refl _, fun j hj1 hj2 => by omega, Or.inr ?_⟩
        simpa using hb
      | false =>
        simp only [Bool.false_eq_true, if_false]
        obtain ⟨r, hr, hr1, hr2, hr3⟩ := ih t (by omega) (by omega)
        refine ⟨r, hr, by omega, fun j hj1 hj2 => ?_, hr3⟩
        rcases Nat.lt_or_ge j t with hj | hj
        · exact hr2 j hj1 hj
        · have : j = t := by omega
          subst this
          exact hb

theorem extendBack_spec (line : List Nat) (s : Nat) (h : s ≤ line.length) :
    ∃ r, extendBack line s = some r ∧ r ≤ s
      ∧ (∀ j, r ≤ j → j < s → isBoundary (line.getD j 0) = false)
      ∧ (r = 0 ∨ isBoundary (line.getD (r - 1) 0) = true) :=
  extendBackAux_spec line s s h (Nat.le_refl s)

theorem goIndex_nil_some (s : List Nat) : goIndex s [] = some 0 := by
  unfold goIndex
  rw [List.range_succ_eq_map, List.find?_cons]
  simp [List.isPrefixOf]

theorem spanOf_some_bounds (line search : List Nat) (ww : Bool) (idx s e : Nat)
    (h : spanOf line search ww idx = some (s, e)) :
    s ≤ idx ∧ idx + search.length ≤ e := by
  unfold spanOf at h
  cases ww with
  | false =>
    simp only [Bool.false_eq_true, if_false, Option.some_inj, Prod.mk.injEq] at h
    omega
  | true =>
    simp only [if_true] at h
    split at h
    · simp at h
    · rename_i r hr
      simp only [Option.some_inj, Prod.mk.injEq] at h
      refine ⟨?_, ?_⟩
      · rw [← h.1]; exact extendBack_le line idx r hr
      · rw [← h.2]; exact extendFwd_ge line (idx + search.length)

theorem applyOccurrence_some_cases (mk : List Nat → List Nat) (line search : List Nat)
    (ww : Bool) (st st1 : HState) (idx : Nat)
    (h : applyOccurrence mk line search ww st idx = some st1) :
    ∃ s e, s ≤ idx ∧ idx + search.length ≤ e ∧
      ((checkSpan st.colored s e = some true ∧ st1 = st) ∨
       (checkSpan st.colored s e = some false
         ∧ st1 = ⟨markSpan st.colored s e,
             st.reps ++ [⟨s, e, mk ((line.drop s).take (e - s))⟩]⟩)) := by
  unfold applyOccurrence at h
  split at h
  · simp at h
  · rename_i s e hsp
    obtain ⟨hs, he⟩ := spanOf_some_bounds line search ww idx s e hsp
    refine ⟨s, e, hs, he, ?_⟩
    split at h
    · simp at h
    · left
      exact ⟨by assumption, (Option.some_inj.mp h).symm⟩
    · rename_i hcs
      split at h
      · simp at h
      · rename_i matched hm
        right
        refine ⟨hcs, ?_⟩
        have := goSlice_some_val line s e matched hm
        subst this
        exact (Option.some_inj.mp h).symm

theorem applyOccurrence_StOK (mk : List Nat → List Nat) (line search : List Nat)
    (ww : Bool) (st st1 : HState) (idx : Nat)
    (hsearch : search ≠ []) (hst : StOK line st)
    (h : applyOccurrence mk line search ww st idx = some st1) :
    StOK line st1 := by
  obtain ⟨s, e, hs, he, hcase⟩ := applyOccurrence_some_cases mk line search ww st st1 idx h
  obtain ⟨hlen, hreps, hpw⟩ := hst
  rcases hcase with ⟨_, rfl⟩ | ⟨hfree, rfl⟩
  · exact ⟨hlen, hreps, hpw⟩
  · have hfree' := checkSpan_some_false st.colored s e hfree
    have hse : s < e := by
      have : 0 < search.length := List.length_pos.mpr hsearch
      omega
    have helen : e ≤ line.length := by
      have := (hfree' (e - 1) (by omega) (by omega)).1
      omega
    refine ⟨?_, ?_, ?_⟩
    · simpa [markSpan_length] using hlen
    · intro r hr
      simp only [List.mem_append, List.mem_singleton] at hr
      rcases hr with hr | rfl
      · obtain ⟨h1, h2, h3⟩ := hreps r hr
        exact ⟨h1, h2, fun i hi1 hi2 => markSpan_getD_mono st.colored s e i (h3 i hi1 hi2)⟩
      · refine ⟨hse, helen, fun i hi1 hi2 => ?_⟩
        exact markSpan_getD_mem st.colored s e i hi1 hi2 (hfree' i hi1 hi2).1
    · rw [List.pairwise_append]
      refine ⟨hpw, List.pairwise_singleton _ _, ?_⟩
      intro a ha b hb
      rw [List.mem_singleton] at hb
      subst hb
      obtain ⟨ha1, ha2, ha3⟩ := hreps a ha
      unfold DisjR
      by_contra hcon
      push_neg at hcon
      dsimp only at hcon
      obtain ⟨hc1, hc2⟩ := hcon
      have hi1 : max a.start s < a.stop := by omega
      have hi2 : max a.start s < e := by omega
      have htrue := ha3 (max a.start s) (Nat.le_max_left _ _) hi1
      have hfalse := (hfree' (max a.start s) (Nat.le_max_right _ _) hi2).2
      rw [htrue] at hfalse
      exact Bool.true_eq_false.mp hfalse

theorem applyOccurrence_TextsRaw (mk : List Nat → List Nat) (line search : List Nat)
    (ww : Bool) (st st1 : HState) (idx : Nat)
    (hmk : ∀ m, mk m = m) (ht : TextsRaw line st)
    (h : applyOccurrence mk line search ww st idx = some st1) :
    TextsRaw line st1 := by
  obtain ⟨s, e, _, _, hcase⟩ := applyOccurrence_some_cases mk line search ww st st1 idx h
  rcases hcase with ⟨_, rfl⟩ | ⟨_, rfl⟩
  · exact ht
  · intro r hr
    simp only [List.mem_append, List.mem_singleton] at hr
    rcases hr with hr | rfl
    · exact ht r hr
    · simp [hmk]

theorem applyOccurrence_sim (mkA mkB : List Nat → List Nat) (line search : List Nat)
    (ww : Bool) (st1 st2 : HState) (idx : Nat)
    (h : st1.colored = st2.colored) :
    Option.map HState.colored (applyOccurrence mkA line search ww st1 idx)
      = Option.map HState.colored (applyOccurrence mkB line search ww st2 idx) := by
  unfold applyOccurrence
  cases hsp : spanOf line search ww idx with
  | none => rfl
  | some se =>
    obtain ⟨s, e⟩ := se
    rw [h]
    dsimp only
    cases hcs : checkSpan st2.colored s e with
    | none => rfl
    | some b =>
      cases b with
      | true => simp [h]
      | false =>
        cases hm : goSlice line s e with
        | none => rfl
        | some matched => simp [h]

theorem scanWordAux_nil_none (mk : List Nat → List Nat) (searchLine line : List Nat)
    (ww : Bool) :
    ∀ fuel pos st, pos + fuel = searchLine.length + 2 →
      scanWordAux mk searchLine line [] ww fuel pos st = none := by
  intro fuel
  induction fuel with
  | zero => intro pos st _; rfl
  | succ fuel ih =>
    intro pos st hpos
    rw [scanWordAux]
    by_cases hlt : searchLine.length < pos
    · rw [if_pos hlt]
    · rw [if_neg hlt, goIndex_nil_some]
      dsimp only
      cases happ : applyOccurrence mk line [] ww st (pos + 0) with
      | none => rfl
      | some st1 => exact ih (pos + 0 + 1) st1 (by omega)

theorem scanWord_nil_none (mk : List Nat → List Nat) (searchLine line : List Nat)
    (ww : Bool) (st : HState) :
    scanWord mk searchLine line [] ww st = none := by
  unfold scanWord
  exact scanWordAux_nil_none mk searchLine line ww (searchLine.length + 2) 0 st (by omega)

theorem scanWordAux_StOK (mk : List Nat → List Nat) (searchLine line search : List Nat)
    (ww : Bool) (hsearch : search ≠ []) :
    ∀ fuel pos st st1, StOK line st →
      scanWordAux mk searchLine line search ww fuel pos st = some st1 → StOK line st1 := by
  intro fuel
  induction fuel with
  | zero => intro pos st st1 _ h; simp [scanWordAux] at h
  | succ fuel ih =>
    intro pos st st1 hok h
    rw [scanWordAux] at h
    split at h
    · simp at h
    · split at h
      · rw [Option.some_inj] at h
        rw [← h]
        exact hok
      · rename_i i hgi
        split at h
        · simp at h
        · rename_i stm happ
          exact ih (pos + i + 1) stm st1
            (applyOccurrence_StOK mk line search ww st stm (pos + i) hsearch hok happ) h

theorem scanWordAux_TextsRaw (mk : List Nat → List Nat) (searchLine line search : List Nat)
    (ww : Bool) (hmk : ∀ m, mk m = m) :
    ∀ fuel pos st st1, TextsRaw line st →
      scanWordAux mk searchLine line search ww fuel pos st = some st1 → TextsRaw line st1 := by
  intro fuel
  induction fuel with
  | zero => intro pos st st1 _ h; simp [scanWordAux] at h
  | succ fuel ih =>
    intro pos st st1 ht h
    rw [scanWordAux] at h
    split at h
    · simp at h
    · split at h
      · rw [Option.some_inj] at h
        rw [← h]
        exact ht
      · rename_i i hgi
        split at h
        · simp at h
        · rename_i stm happ
          exact ih (pos + i + 1) stm st1
            (applyOccurrence_TextsRaw mk line search ww st stm (pos + i) hmk ht happ) h

theorem scanWordAux_sim (mkA mkB : List Nat → List Nat) (searchLine line search : List Nat)
    (ww : Bool) :
    ∀ fuel pos st1 st2, st1.colored = st2.colored →
      Option.map HState.colored (scanWordAux mkA searchLine line search ww fuel pos st1)
        = Option.map HState.colored (scanWordAux mkB searchLine line search ww fuel pos st2) := by
  intro fuel
  induction fuel with
  | zero => intro pos st1 st2 _; rfl
  | succ fuel ih =>
    intro pos st1 st2 h
    rw [scanWordAux, scanWordAux]
    by_cases hlt : searchLine.length < pos
    · rw [if_pos hlt, if_pos hlt]
    · rw [if_neg hlt, if_neg hlt]
      cases hgi : goIndex (searchLine.drop pos) search with
      | none => simp [h]
      | some i =>
        dsimp only
        have hsim := applyOccurrence_sim mkA mkB line search ww st1 st2 (pos + i) h
        cases happA : applyOccurrence mkA line search ww st1 (pos + i) with
        | none =>
          rw [happA] at hsim
          have : applyOccurrence mkB line search ww st2 (pos + i) = none := by
            cases happB : applyOccurrence mkB line search ww st2 (pos + i) with
            | none => rfl
            | some u2 => rw [happB] at hsim; simp at hsim
          rw [this]
        | some u1 =>
          rw [happA] at hsim
          cases happB : applyOccurrence mkB line search ww st2 (pos + i) with
          | none => rw [happB] at hsim; simp at hsim
          | some u2 =>
            rw [happB] at hsim
            simp only [Option.map_some'] at hsim
            rw [Option.some_inj] at hsim
            exact ih (pos + i + 1) u1 u2 hsim

theorem scanWords_StOK (mkText : WordConfig → List Nat → List Nat)
    (searchLine line : List Nat) (ww : Bool) :
    ∀ configs (st st1 : HState), StOK line st →
      scanWords mkText searchLine line ww configs st = some st1 → StOK line st1 := by
  intro configs
  induction configs with
  | nil =>
    intro st st1 hok h
    rw [scanWords, Option.some_inj] at h
    rw [← h]
    exact hok
  | cons cfg rest ih =>
    intro st st1 hok h
    rw [scanWords] at h
    split at h
    · simp at h
    · rename_i stm hsw
      by_cases hsearch : cfg.search = []
      · rw [hsearch, scanWord_nil_none] at hsw
        simp at hsw
      · unfold scanWord at hsw
        exact ih stm st1
          (scanWordAux_StOK (mkText cfg) searchLine line cfg.search ww hsearch
            (searchLine.length + 2) 0 st stm hok hsw) h

theorem scanWords_TextsRaw (mkText : WordConfig → List Nat → List Nat)
    (searchLine line : List Nat) (ww : Bool) (hmk : ∀ cfg m, mkText cfg m = m) :
    ∀ configs (st st1 : HState), TextsRaw line st →
      scanWords mkText searchLine line ww configs st = some st1 → TextsRaw line st1 := by
  intro configs
  induction configs with
  | nil =>
    intro st st1 ht h
    rw [scanWords, Option.some_inj] at h
    rw [← h]
    exact ht
  | cons cfg rest ih =>
    intro st st1 ht h
    rw [scanWords] at h
    split at h
    · simp at h
    · rename_i stm hsw
      unfold scanWord at hsw
      exact ih stm st1
        (scanWordAux_TextsRaw (mkText cfg) searchLine line cfg.search ww (hmk cfg)
          (searchLine.length + 2) 0 st stm ht hsw) h

theorem scanWords_sim (mkA mkB : WordConfig → List Nat → List Nat)
    (searchLine line : List Nat) (ww : Bool) :
    ∀ configs (st1 st2 : HState), st1.colored = st2.colored →
      Option.map HState.colored (scanWords mkA searchLine line ww configs st1)
        = Option.map HState.colored (scanWords mkB searchLine line ww configs st2) := by
  intro configs
  induction configs with
  | nil => intro st1 st2 h; simp [scanWords, h]
  | cons cfg rest ih =>
    intro st1 st2 h
    rw [scanWords, scanWords]
    have hsim := scanWordAux_sim (mkA cfg) (mkB cfg) searchLine line cfg.search ww
      (searchLine.length + 2) 0 st1 st2 h
    unfold scanWord
    cases hswA : scanWordAux (mkA cfg) searchLine line cfg.search ww
        (searchLine.length + 2) 0 st1 with
    | none =>
      rw [hswA] at hsim
      have : scanWordAux (mkB cfg) searchLine line cfg.search ww
          (searchLine.length + 2) 0 st2 = none := by
        cases hswB : scanWordAux (mkB cfg) searchLine line cfg.search ww
            (searchLine.length + 2) 0 st2 with
        | none => rfl
        | some u2 => rw [hswB] at hsim; simp at hsim
      rw [this]
    | some u1 =>
      rw [hswA] at hsim
      cases hswB : scanWordAux (mkB cfg) searchLine line cfg.search ww
          (searchLine.length + 2) 0 st2 with
      | none => rw [hswB] at hsim; simp at hsim
      | some u2 =>
        rw [hswB] at hsim
        simp only [Option.map_some'] at hsim
        rw [Option.some_inj] at hsim
        exact ih u1 u2 hsim

theorem scanWords_nohit (mkText : WordConfig → List Nat → List Nat)
    (searchLine line : List Nat) (ww : Bool) :
    ∀ configs (st : HState), (∀ cfg ∈ configs, goIndex searchLine cfg.search = none) →
      scanWords mkText searchLine line ww configs st = some st := by
  intro configs
  induction configs with
  | nil => intro st _; rfl
  | cons cfg rest ih =>
    intro st hmiss
    rw [scanWords]
    have hsw : scanWord (mkText cfg) searchLine line cfg.search ww st = some st := by
      unfold scanWord
      have h2 : searchLine.length + 2 = (searchLine.length + 1) + 1 := rfl
      rw [h2, scanWordAux]
      rw [if_neg (by omega)]
      rw [List.drop_zero, hmiss cfg (List.mem_cons_self cfg rest)]
    rw [hsw]
    exact ih st (fun c hc => hmiss c (List.mem_cons_of_mem cfg hc))

theorem innerPass_length (h : Repl) : ∀ t : List Repl, (innerPass h t).2.length = t.length := by
  intro t
  induction t generalizing h with
  | nil => rfl
  | cons x xs ih =>
    rw [innerPass]
    by_cases hx : x.start < h.start
    · rw [if_pos hx]
      simpa using ih x
    · rw [if_neg hx]
      simpa using ih h

theorem innerPass_perm (h : Repl) :
    ∀ t : List Repl, ((innerPass h t).1 :: (innerPass h t).2).Perm (h :: t) := by
  intro t
  induction t generalizing h with
  | nil => rw [innerPass]
  | cons x xs ih =>
    rw [innerPass]
    by_cases hx : x.start < h.start
    · rw [if_pos hx]
      dsimp only
      exact List.Perm.trans
        (List.Perm.swap h (innerPass x xs).1 (innerPass x xs).2)
        (List.Perm.cons h (ih x))
    · rw [if_neg hx]
      dsimp only
      exact List.Perm.trans
        (List.Perm.swap x (innerPass h xs).1 (innerPass h xs).2)
        (List.Perm.trans (List.Perm.cons x (ih h)) (List.Perm.swap h x xs))

theorem innerPass_head_le (h : Repl) :
    ∀ t : List Repl, (innerPass h t).1.start ≤ h.start := by
  intro t
  induction t generalizing h with
  | nil => rw [innerPass]
  | cons x xs ih =>
    rw [innerPass]
    by_cases hx : x.start < h.start
    · rw [if_pos hx]
      dsimp only
      exact Nat.le_trans (ih x) (by omega)
    · rw [if_neg hx]
      dsimp only
      exact ih h

theorem innerPass_le (h : Repl) :
    ∀ t : List Repl, ∀ x ∈ (innerPass h t).2, (innerPass h t).1.start ≤ x.start := by
  intro t
  induction t generalizing h with
  | nil => intro x hx; rw [innerPass] at hx; simp at hx
  | cons x xs ih =>
    intro z hz
    rw [innerPass] at hz ⊢
    by_cases hx : x.start < h.start
    · rw [if_pos hx] at hz ⊢
      dsimp only at hz ⊢
      rcases List.mem_cons.mp hz with rfl | hz2
      · exact Nat.le_trans (innerPass_head_le x xs) (by omega)
      · exact ih x z hz2
    · rw [if_neg hx] at hz ⊢
      dsimp only at hz ⊢
      rcases List.mem_cons.mp hz with rfl | hz2
      · exact Nat.le_trans (innerPass_head_le h xs) (by omega)
      · exact ih h z hz2

theorem sortRepsAux_perm : ∀ (fuel : Nat) (l : List Repl), l.length ≤ fuel →
    (sortRepsAux fuel l).Perm l := by
  intro fuel
  induction fuel with
  | zero =>
    intro l _
    cases l with
    | nil => exact List.Perm.refl _
    | cons h t => exact List.Perm.refl _
  | succ fuel ih =>
    intro l hl
    cases l with
    | nil => exact List.Perm.refl _
    | cons h t =>
      rw [sortRepsAux]
      have hlen : (innerPass h t).2.length ≤ fuel := by
        rw [innerPass_length h t]
        simpa using hl
      exact List.Perm.trans
        (List.Perm.cons (innerPass h t).1 (ih (innerPass h t).2 hlen))
        (innerPass_perm h t)

theorem sortRepsAux_sorted : ∀ (fuel : Nat) (l : List Repl), l.length ≤ fuel →
    (sortRepsAux fuel l).Pairwise (fun a b => a.start ≤ b.start) := by
  intro fuel
  induction fuel with
  | zero =>
    intro l hl
    cases l with
    | nil => exact List.Pairwise.nil
    | cons h t => simp at hl
  | succ fuel ih =>
    intro l hl
    cases l with
    | nil => exact List.Pairwise.nil
    | cons h t =>
      rw [sortRepsAux]
      have hlen : (innerPass h t).2.length ≤ fuel := by
        rw [innerPass_length h t]
        simpa using hl
      rw [List.pairwise_cons]
      refine ⟨?_, ih (innerPass h t).2 hlen⟩
      intro z hz
      have hz2 : z ∈ (innerPass h t).2 :=
        (sortRepsAux_perm fuel (innerPass h t).2 hlen).mem_iff.mp hz
      exact innerPass_le h t z hz2

theorem sortReps_perm (l : List Repl) : (sortReps l).Perm l :=
  sortRepsAux_perm l.length l (Nat.le_refl _)

theorem sortReps_sorted (l : List Repl) :
    (sortReps l).Pairwise (fun a b => a.start ≤ b.start) :=
  sortRepsAux_sorted l.length l (Nat.le_refl _)

theorem assembleAux_raw (line : List Nat) :
    ∀ (reps : List Repl) (last : Nat), last ≤ line.length →
      (∀ r ∈ reps, r.start < r.stop ∧ r.stop ≤ line.length
        ∧ r.text = (line.drop r.start).take (r.stop - r.start)) →
      reps.Pairwise (fun a b => a.stop ≤ b.start) →
      (∀ r ∈ reps, last ≤ r.start) →
      assembleAux line last reps = some (line.drop last) := by
  intro reps
  induction reps with
  | nil =>
    intro last hlast _ _ _
    rw [assembleAux, if_pos hlast]
  | cons r rest ih =>
    intro last hlast hok hpw hge
    obtain ⟨hr1, hr2, hr3⟩ := hok r (List.mem_cons_self r rest)
    have hlr : last ≤ r.start := hge r (List.mem_cons_self r rest)
    rw [assembleAux]
    rw [goSlice_eq_some line last r.start hlr (by omega)]
    dsimp only
    have hih := ih r.stop hr2 (fun z hz => hok z (List.mem_cons_of_mem r hz))
      (List.pairwise_cons.mp hpw).2
      (fun z hz => (List.pairwise_cons.mp hpw).1 z hz)
    rw [hih]
    dsimp only
    rw [Option.some_inj, hr3]
    have e1 : line.drop r.start
        = (line.drop r.start).take (r.stop - r.start) ++ line.drop r.stop := by
      conv_lhs => rw [← List.take_append_drop (r.stop - r.start) (line.drop r.start)]
      rw [List.drop_drop, Nat.add_sub_cancel' (Nat.le_of_lt hr1)]
    have e2 : line.drop last
        = (line.drop last).take (r.start - last) ++ line.drop r.start := by
      conv_lhs => rw [← List.take_append_drop (r.start - last) (line.drop last)]
      rw [List.drop_drop, Nat.add_sub_cancel' hlr]
    rw [List.append_assoc, ← e1]
    exact e2.symm

theorem StOK_init (line : List Nat) :
    StOK line ⟨List.replicate line.length false, []⟩ := by
  refine ⟨by simp, ?_, List.Pairwise.nil⟩
  intro r hr
  simp at hr

theorem TextsRaw_init (line : List Nat) :
    TextsRaw line ⟨List.replicate line.length false, []⟩ := by
  intro r hr
  simp at hr

theorem highlightStripped_of_some (line : List Nat) (configs : List WordConfig)
    (cs ww : Bool) (out : List Nat)
    (hsome : highlightLine line configs cs ww = some out) :
    highlightStripped line configs cs ww = some line := by
  cases configs with
  | nil => rfl
  | cons c rest =>
    unfold highlightLine at hsome
    unfold highlightStripped
    dsimp only at hsome ⊢
    cases hA : scanWords goText (searchLineOf cs line) line ww (c :: rest)
        ⟨List.replicate line.length false, []⟩ with
    | none => rw [hA] at hsome; simp at hsome
    | some stA =>
      have hsim := scanWords_sim rawText goText (searchLineOf cs line) line ww (c :: rest)
        ⟨List.replicate line.length false, []⟩ ⟨List.replicate line.length false, []⟩ rfl
      rw [hA] at hsim
      cases hB : scanWords rawText (searchLineOf cs line) line ww (c :: rest)
          ⟨List.replicate line.length false, []⟩ with
      | none => rw [hB] at hsim; simp at hsim
      | some stB =>
        dsimp only
        have hok : StOK line stB :=
          scanWords_StOK rawText (searchLineOf cs line) line ww (c :: rest)
            ⟨List.replicate line.length false, []⟩ stB (StOK_init line) hB
        have htx : TextsRaw line stB :=
          scanWords_TextsRaw rawText (searchLineOf cs line) line ww (fun _ _ => rfl)
            (c :: rest) ⟨List.replicate line.length false, []⟩ stB (TextsRaw_init line) hB
        cases hreps : stB.reps with
        | nil => rfl
        | cons r0 rrest =>
          dsimp only
          have hperm : (sortReps (r0 :: rrest)).Perm stB.reps := by
            rw [hreps]; exact sortReps_perm (r0 :: rrest)
          have hmem : ∀ r ∈ sortReps (r0 :: rrest), r ∈ stB.reps :=
            fun r hr => hperm.mem_iff.mp hr
          have hfacts : ∀ r ∈ sortReps (r0 :: rrest),
              r.start < r.stop ∧ r.stop ≤ line.length
                ∧ r.text = (line.drop r.start).take (r.stop - r.start) := by
            intro r hr
            obtain ⟨h1, h2, _⟩ := hok.2.1 r (hmem r hr)
            exact ⟨h1, h2, htx r (hmem r hr)⟩
          have hdisj : (sortReps (r0 :: rrest)).Pairwise DisjR := by
            have hsymm : ∀ {x y : Repl}, DisjR x y → DisjR y x := fun h => Or.symm h
            exact (List.Perm.pairwise_iff hsymm hperm).mpr hok.2.2
          have hchain : (sortReps (r0 :: rrest)).Pairwise (fun a b => a.stop ≤ b.start) := by
            have hand := List.Pairwise.and (sortReps_sorted (r0 :: rrest)) hdisj
            refine List.Pairwise.imp_of_mem ?_ hand
            intro a b ha hb hab
            obtain ⟨hle, hd⟩ := hab
            obtain ⟨ha1, _, _⟩ := hfacts a ha
            obtain ⟨hb1, _, _⟩ := hfacts b hb
            unfold DisjR at hd
            rcases hd with hd | hd
            · exact hd
            · omega
          have := assembleAux_raw line (sortReps (r0 :: rrest)) 0 (Nat.zero_le _)
            hfacts hchain (fun r _ => Nat.zero_le _)
          rw [this, List.drop_zero]

/-- C1: for every candidate occurrence with an in-bounds span (plain mode:
span `[idx, idx + len(search))`), the colorizer discards the candidate
exactly when some byte of the span is already claimed in the occupancy mask,
and otherwise claims every byte of the span and records the replacement.
Hence priority is declaration order of words, never match position or
length: with words "ab" ([97,98]) and "bc" ([98,99]) in that order and input
"xabcx" ([120,97,98,99,120]), only "ab" is colorized and "bc"'s overlapping
candidate is rejected. -/
theorem ch_c1_overlap_first_claim_wins :
    (∀ (mk : List Nat → List Nat) (line search : List Nat) (st : HState) (idx : Nat),
        st.colored.length = line.length →
        idx + search.length ≤ line.length →
        applyOccurrence mk line search false st idx =
          (if spanClaimedB st.colored idx (idx + search.length) then some st
           else some ⟨markSpan st.colored idx (idx + search.length),
                st.reps ++ [⟨idx, idx + search.length,
                  mk ((line.drop idx).take (idx + search.length - idx))⟩]⟩))
    ∧ highlightLine [120, 97, 98, 99, 120] (parseArgs [[97, 98], [98, 99]] false false)
        false false
      = some ([120] ++ rgbToANSI 255 105 97 false ++ [97, 98] ++ resetCode ++ [99, 120]) := by
  constructor
  · intro mk line search st idx hlen hb
    unfold applyOccurrence
    have hsp : spanOf line search false idx = some (idx, idx + search.length) := rfl
    rw [hsp]
    dsimp only
    rw [checkSpan_eq_spanClaimedB st.colored idx (idx + search.length) (by omega) (by omega)]
    cases hcl : spanClaimedB st.colored idx (idx + search.length) with
    | true => rfl
    | false =>
      dsimp only
      rw [goSlice_eq_some line idx (idx + search.length) (by omega) hb]
      simp
  · decide

/-- C2: when `wholeWord` is set the span is extended outward in both
directions before the overlap check — the end moves forward while in bounds
and the byte there is not a space, newline or tab; the start moves backward
under the same conditions (with `start > 0`).  For input
"backup_13344.zip started" and word "back" the entire token
"backup_13344.zip" is colorized; and a match preceded by non-boundary bytes
("xxback", word "back") is extended backward to the start of its token. -/
theorem ch_c2_whole_word_extension :
    (∀ (line : List Nat) (e : Nat), e ≤ line.length →
        e ≤ extendFwd line e ∧ extendFwd line e ≤ line.length
        ∧ (∀ j, e ≤ j → j < extendFwd line e → isBoundary (line.getD j 0) = false)
        ∧ (extendFwd line e = line.length
           ∨ isBoundary (line.getD (extendFwd line e) 0) = true))
    ∧ (∀ (line : List Nat) (s : Nat), s ≤ line.length →
        ∃ r, extendBack line s = some r ∧ r ≤ s
          ∧ (∀ j, r ≤ j → j < s → isBoundary (line.getD j 0) = false)
          ∧ (r = 0 ∨ isBoundary (line.getD (r - 1) 0) = true))
    ∧ highlightLine
        [98, 97, 99, 107, 117, 112, 95, 49, 51, 51, 52, 52, 46, 122, 105, 112,
         32, 115, 116, 97, 114, 116, 101, 100]
        (parseArgs [[98, 97, 99, 107]] false false) false true
      = some (rgbToANSI 255 105 97 false
          ++ [98, 97, 99, 107, 117, 112, 95, 49, 51, 51, 52, 52, 46, 122, 105, 112]
          ++ resetCode ++ [32, 115, 116, 97, 114, 116, 101, 100])
    ∧ highlightLine [120, 120, 98, 97, 99, 107] (parseArgs [[98, 97, 99, 107]] false false)
        false true
      = some (rgbToANSI 255 105 97 false ++ [120, 120, 98, 97, 99, 107] ++ resetCode) := by
  refine ⟨?_, ?_, by decide, by decide⟩
  · intro line e he
    obtain ⟨h1, h2, h3⟩ := extendFwd_spec line e he
    exact ⟨extendFwd_ge line e, h1, h2, h3⟩
  · intro line s hs
    exact extendBack_spec line s hs

/-- C3: auto color assignment is the two-pass algorithm: a first pass
reserves every preset palette slot claimed by an explicit color request
(regardless of the requesting word's position), then a second pass assigns
each colorless word the first still-unreserved preset in palette order; for
words ["a::red", "b", "c::green", "d"], b resolves to orange and d to blue.
Once every slot is used, any further auto assignment yields the first
palette entry (red) and leaves the used set unchanged. -/
theorem ch_c3_two_pass_color_assignment :
    (parseArgs [[97, 58, 58, 114, 101, 100], [98],
        [99, 58, 58, 103, 114, 101, 101, 110], [100]] false false).map WordConfig.color
      = [rgbToANSI 255 105 97 false, rgbToANSI 240 160 75 false,
         rgbToANSI 134 194 29 false, rgbToANSI 134 176 189 false]
    ∧ (∀ bg : Bool, getNextAvailableColor (List.replicate 6 true) bg
        = (rgbToANSI 255 105 97 bg, List.replicate 6 true)) := by
  refine ⟨by decide, ?_⟩
  intro bg
  cases bg <;> rfl

/-- C4 counterexample: the token "zzzzzz" ([122,...]) is neither a palette
name nor six hex digits, yet `parseColor` resolves it (the ignored
`fmt.Sscanf` error leaves r = g = b = 0) instead of failing — refuting the
claim that any non-hex content yields a resolution failure. -/
theorem ch_c4_nonhex_resolves :
    parseColor [122, 122, 122, 122, 122, 122] false = rgbToANSI 0 0 0 false
    ∧ parseColor [122, 122, 122, 122, 122, 122] false ≠ [] := by
  exact ⟨by decide, by decide⟩

/-- C4 (amended): color resolution fails exactly when the token is neither a
palette name (matched case-insensitively) nor, after stripping an optional
leading '#', exactly 6 bytes long; a 6-byte remainder is scanned as hex with
unscanned components defaulting to 0, so non-hex content still resolves.  On
a failure the word receives the next auto-assigned preset color (red here,
with a warning on stderr in the source) and parsing continues. -/
theorem ch_c4_resolution_failure_iff :
    (∀ (token : List Nat) (bg : Bool),
        parseColor token bg = []
          ↔ namedColors.find? (fun nc => nc.name == goToLower token) = none
            ∧ (goTrimHash token).length ≠ 6)
    ∧ parseArgs [[120, 58, 58, 110, 111, 116, 97, 99, 111, 108, 111, 114]] false false
      = [⟨[120], [120], rgbToANSI 255 105 97 false, false⟩] := by
  constructor
  · intro token bg
    unfold parseColor
    cases hf : namedColors.find? (fun nc => nc.name == goToLower token) with
    | some nc =>
      dsimp only
      constructor
      · intro h
        exact absurd h (rgbToANSI_ne_nil nc.r nc.g nc.b bg)
      · rintro ⟨h1, _⟩
        simp at h1
    | none =>
      dsimp only
      by_cases hl : (goTrimHash token).length = 6
      · rw [if_neg (by omega)]
        constructor
        · intro h
          exact absurd h (rgbToANSI_ne_nil _ _ _ bg)
        · rintro ⟨_, h2⟩
          exact absurd hl h2
      · rw [if_pos hl]
        simp [hl]
  · decide

/-- C5: the claim that empty word terms are filtered before reaching the
word table is violated by the code — `parseArgs` performs no emptiness
check, so the argument "::red" produces a config with an empty search key,
and `highlightLine` on any line (here "x") then panics: the empty-key scan
loop reaches `pos = len(searchLine) + 1` and the slice `searchLine[pos:]`
is out of range (`none` in the model). -/
theorem ch_c5_empty_term_reaches_matcher_and_crashes :
    parseArgs [[58, 58, 114, 101, 100]] false false
      = [⟨[], [], rgbToANSI 255 105 97 false, false⟩]
    ∧ highlightLine [120] (parseArgs [[58, 58, 114, 101, 100]] false false) false false
      = none := by
  exact ⟨by decide, by decide⟩

/-- C6: the per-word scan resumes at `idx + 1` after a find at `idx` — both
in the candidate-offset view (`scanStartsAux`) and in the scan loop itself
(`scanWordAux`) — not at the end of the match; so the two overlapping
occurrences of "aa" in "aaa" (offsets 0 and 1) are both produced as
candidates before collision filtering. -/
theorem ch_c6_scan_resumes_at_idx_plus_one :
    (∀ (searchLine search : List Nat) (fuel pos i : Nat),
        pos ≤ searchLine.length →
        goIndex (searchLine.drop pos) search = some i →
        scanStartsAux searchLine search (fuel + 1) pos
          = (pos + i) :: scanStartsAux searchLine search fuel (pos + i + 1))
    ∧ (∀ (mk : List Nat → List Nat) (searchLine line search : List Nat) (ww : Bool)
        (fuel pos i : Nat) (st st1 : HState),
        pos ≤ searchLine.length →
        goIndex (searchLine.drop pos) search = some i →
        applyOccurrence mk line search ww st (pos + i) = some st1 →
        scanWordAux mk searchLine line search ww (fuel + 1) pos st
          = scanWordAux mk searchLine line search ww fuel (pos + i + 1) st1)
    ∧ scanStarts [97, 97, 97] [97, 97] = [0, 1] := by
  refine ⟨?_, ?_, by decide⟩
  · intro sl key fuel pos i hpos hgi
    rw [scanStartsAux, if_neg (by omega), hgi]
  · intro mk sl line key ww fuel pos i st st1 hpos hgi happ
    rw [scanWordAux, if_neg (by omega), hgi]
    dsimp only
    rw [happ]

/-- C7: the claim that the lower-cased search view always has the same byte
length as the line is violated by `strings.ToLower`: the two-byte rune
U+023A (Ⱥ, bytes [200, 186]) lower-cases to the three-byte U+2C65, so for
the line "Ⱥa" ([200, 186, 97]) the view has 4 bytes against the line's 3;
the case-insensitive match of "a" at view offset 3 is then out of bounds and
the occupancy-mask check panics (`none` in the model). -/
theorem ch_c7_search_view_length_mismatch_crash :
    (searchLineOf false [200, 186, 97]).length = 4
    ∧ ([200, 186, 97] : List Nat).length = 3
    ∧ highlightLine [200, 186, 97] (parseArgs [[97]] false false) false false = none := by
  exact ⟨by decide, by decide, by decide⟩

/-- C8: for every line in which no configured search key occurs in the
search view (in particular for an empty word table), `highlightLine`
returns the line byte-identically unchanged, with no escape codes. -/
theorem ch_c8_passthrough (line : List Nat) (configs : List WordConfig) (cs ww : Bool)
    (h : ∀ cfg ∈ configs, goIndex (searchLineOf cs line) cfg.search = none) :
    highlightLine line configs cs ww = some line := by
  cases configs with
  | nil => rfl
  | cons c rest =>
    unfold highlightLine
    dsimp only
    rw [scanWords_nohit goText (searchLineOf cs line) line ww (c :: rest)
      ⟨List.replicate line.length false, []⟩ h]

/-- C9: round-trip — whenever the lower-cased search view has the same byte
length as the line and the colorizer succeeds, the untouched gaps and the
matched substrings, concatenated in output order (`highlightStripped`, i.e.
the output with every color prefix and reset sequence deleted), equal the
original line byte-for-byte. -/
theorem ch_c9_roundtrip (line : List Nat) (configs : List WordConfig) (cs ww : Bool)
    (out : List Nat)
    (_hlen : (searchLineOf cs line).length = line.length)
    (hsome : highlightLine line configs cs ww = some out) :
    highlightStripped line configs cs ww = some line :=
  highlightStripped_of_some line configs cs ww out hsome

/-- C10: an explicit hex token whose rendered escape code equals a preset's
("FF6961" is the red preset's RGB) removes that preset slot from the
auto-assignment pool exactly as a request by name would — the reservation
pass compares rendered escape codes — in both foreground and background
modes: for ["a::FF6961", "b"], b gets green, not red. -/
theorem ch_c10_hex_reserves_preset_slot :
    (parseArgs [[97, 58, 58, 70, 70, 54, 57, 54, 49], [98]] false false).map WordConfig.color
      = [rgbToANSI 255 105 97 false, rgbToANSI 134 194 29 false]
    ∧ (parseArgs [[97, 58, 58, 70, 70, 54, 57, 54, 49], [98]] false true).map WordConfig.color
      = [rgbToANSI 255 105 97 true, rgbToANSI 134 194 29 true] := by
  exact ⟨by decide, by decide⟩

/-- Witness for C1: the general discard-or-claim rule evaluated at a concrete
state (mask [true, false], candidate "6" at offset 1 of line [5, 6]). -/
theorem ch_c1_witness :
    ((⟨[true, false], []⟩ : HState).colored.length = ([5, 6] : List Nat).length)
    ∧ (1 + ([6] : List Nat).length ≤ ([5, 6] : List Nat).length)
    ∧ applyOccurrence id [5, 6] [6] false ⟨[true, false], []⟩ 1
      = (if spanClaimedB (⟨[true, false], []⟩ : HState).colored 1 (1 + ([6] : List Nat).length)
            then some ⟨[true, false], []⟩
         else some ⟨markSpan (⟨[true, false], []⟩ : HState).colored 1 (1 + ([6] : List Nat).length),
            (⟨[true, false], []⟩ : HState).reps ++ [⟨1, 1 + ([6] : List Nat).length,
              id ((([5, 6] : List Nat).drop 1).take (1 + ([6] : List Nat).length - 1))⟩]⟩) :=
  ⟨by decide, by decide,
    ch_c1_overlap_first_claim_wins.1 id [5, 6] [6] ⟨[true, false], []⟩ 1 (by decide) (by decide)⟩

/-- Witness for C2: the forward-extension characterization evaluated on the
concrete line "b " ([98, 32]) from offset 1. -/
theorem ch_c2_witness :
    (1 ≤ ([98, 32] : List Nat).length)
    ∧ (1 ≤ extendFwd [98, 32] 1 ∧ extendFwd [98, 32] 1 ≤ ([98, 32] : List Nat).length
       ∧ (∀ j, 1 ≤ j → j < extendFwd [98, 32] 1
            → isBoundary (([98, 32] : List Nat).getD j 0) = false)
       ∧ (extendFwd [98, 32] 1 = ([98, 32] : List Nat).length
          ∨ isBoundary (([98, 32] : List Nat).getD (extendFwd [98, 32] 1) 0) = true)) :=
  ⟨by decide, ch_c2_whole_word_extension.1 [98, 32] 1 (by decide)⟩

/-- Witness for C4: via the amended characterization, "zz" ([122, 122]) is a
resolution failure (not a name, length 2 after the hash strip). -/
theorem ch_c4_witness : parseColor [122, 122] false = [] :=
  (ch_c4_resolution_failure_iff.1 [122, 122] false).mpr (by decide)

/-- Witness for C6: the resume-at-idx-plus-one equation evaluated on the
concrete scan of "aa" over "aaa" from position 0. -/
theorem ch_c6_witness :
    (0 ≤ ([97, 97, 97] : List Nat).length)
    ∧ goIndex (([97, 97, 97] : List Nat).drop 0) [97, 97] = some 0
    ∧ scanStartsAux [97, 97, 97] [97, 97] (3 + 1) 0
      = (0 + 0) :: scanStartsAux [97, 97, 97] [97, 97] 3 (0 + 0 + 1) :=
  ⟨by decide, by decide,
    ch_c6_scan_resumes_at_idx_plus_one.1 [97, 97, 97] [97, 97] 3 0 0 (by decide) (by decide)⟩

/-- Witness for C8: the word "z" ([122]) does not occur in "hi" ([104, 105]),
so the line passes through unchanged. -/
theorem ch_c8_witness :
    (∀ cfg ∈ parseArgs [[122]] false false,
        goIndex (searchLineOf false [104, 105]) cfg.search = none)
    ∧ highlightLine [104, 105] (parseArgs [[122]] false false) false false = some [104, 105] :=
  ⟨by decide,
    ch_c8_passthrough [104, 105] (parseArgs [[122]] false false) false false (by decide)⟩

/-- Witness for C9: the colorizer on line "ab" ([97, 98]) with word "a"
succeeds, and stripping the escape codes recovers the line. -/
theorem ch_c9_witness :
    ((searchLineOf false [97, 98]).length = ([97, 98] : List Nat).length)
    ∧ highlightLine [97, 98] (parseArgs [[97]] false false) false false
      = some (rgbToANSI 255 105 97 false ++ [97] ++ resetCode ++ [98])
    ∧ highlightStripped [97, 98] (parseArgs [[97]] false false) false false = some [97, 98] :=
  ⟨by decide, by decide,
    ch_c9_roundtrip [97, 98] (parseArgs [[97]] false false) false false
      (rgbToANSI 255 105 97 false ++ [97] ++ resetCode ++ [98]) (by decide) (by decide)⟩
